import Mathlib

open scoped Matrix

/-!
# Verification of the vLGP variational-EM inference engine

Shallow embedding, over exact rationals, of the two source files of the
repository:

* `src/vb.py`    — the reference variational routine with trust-region
  (damped Newton) accept/reject control for the `b`, `a` and `m` blocks;
* `src/vlgp/core.py` — the trial-isolated engine: E-step
  (`infer_single_trial`), M-step (`mstep`), the outer driver (`vem`),
  the identifiability constraints (`constrain_latent`, `constrain_loading`)
  and the posterior-statistic refreshers (`update_w`, `update_v`).

Numbers are modelled by `ℚ`; a floating NaN produced by a lower-bound
evaluation is modelled by `Option.none`; a `LinAlgError` raised by a linear
solve is modelled by the determinant of the system matrix being zero
(`scipy.linalg.solve` / `numpy.linalg.solve` fail exactly on singular
systems; the `assume_a='pos'` Cholesky refinement additionally fails on
indefinite input, which never occurs on the positive-semidefinite systems
built here).  Helper functions of the repository that are imported by
`core.py` but whose files are not part of the sources (`trunc_exp` from
`vlgp/math.py`, `clip` from `vlgp/util.py`) are modelled from the spec and
marked as such.
-/

/-- Modelled from the spec: `clip` from `src/vlgp/util.py` (not under the
sources) clips an update element-wise to a configured bound, i.e. clamps a
value into the interval `[-bound, bound]`
("Clip Δ element-wise to a configured bound before applying"). -/
def clipQ (bound x : ℚ) : ℚ := max (-bound) (min bound x)

/-- `numpy.var(·, ddof=0)` along a pooled axis: the maximum-likelihood
empirical variance, mean of squared deviations with no degrees-of-freedom
correction. -/
def varQ {T : ℕ} (f : Fin T → ℚ) : ℚ :=
  (∑ t, (f t - (∑ s, f s) / T) ^ 2) / T

/-- Executable matrix inverse over `ℚ`: `det⁻¹ • adjugate`.  Agrees with
Mathlib's (noncomputable) `Matrix.inv` on every input. -/
def invQ {n : ℕ} (A : Matrix (Fin n) (Fin n) ℚ) : Matrix (Fin n) (Fin n) ℚ :=
  A.det⁻¹ • A.adjugate

theorem invQ_eq {n : ℕ} (A : Matrix (Fin n) (Fin n) ℚ) : invQ A = A⁻¹ := by
  rw [invQ, Matrix.inv_def, Ring.inverse_eq_inv']

namespace VB

/-! ## `src/vb.py` — trust-region control (`variational`)

The three parameter blocks of `variational` (per-channel `b`, per-dimension
`a`, per-dimension `m`) share one adaptation scheme, lines 191–215 (b),
217–255 (a, Lagrangian branch) and 282–318 (m) of `src/vb.py`:

* solve for the damped step `Δ = -r · solve(H, g)`;
* predict the improvement `g·Δ + ½·Δ·H·Δ`;
* apply, re-evaluate the lower bound `lb`;
* if `lb` is NaN or `lb < lbound[it-1]`: restore the block's parameter and
  its cached rate slice, set the trust scalar to `0.5·r + eps`;
* else if `lb - lbound[it-1] > 0.75 · predict`: multiply the trust scalar
  by `1.5` (the upper clamp is commented out);
* else keep the new parameter and the trust scalar.
-/

/-- Shrink factor `dec = 0.5` of `src/vb.py`. -/
def dec : ℚ := 1 / 2

/-- Growth factor `inc = 1.5` of `src/vb.py`. -/
def inc : ℚ := 3 / 2

/-- Acceptance threshold `thld = 0.75` of `src/vb.py`. -/
def thld : ℚ := 3 / 4

/-- Predicted bound improvement of a candidate step:
`predict = np.inner(grad, delta) + 0.5 * delta @ (hess @ delta)`. -/
def predictQ {n : ℕ} (g d : Fin n → ℚ) (H : Matrix (Fin n) (Fin n) ℚ) : ℚ :=
  (∑ i, g i * d i) + 1 / 2 * ∑ i, d i * H.mulVec d i

/-- State of one trust-region block: the live parameter slice, its cached
rate slice, and the block's trust scalar (`rb[n]`, `ra[l]` or `rm[l]`). -/
structure TRState (P R : Type) where
  param : P
  rate : R
  r : ℚ
  deriving DecidableEq

/-- One post-evaluation trust-region adaptation of `src/vb.py`: `st` holds
the pre-step snapshot (`last_b`/`last_a`/`last_m` and `last_rate`),
`newParam`/`newRate` the state after the candidate step was applied, `lb`
the re-evaluated lower bound (`none` models NaN), `lbPrev` the recorded
bound `lbound[it-1]`, and `predict` the predicted improvement. -/
def trustStep {P R : Type} (eps lbPrev : ℚ) (st : TRState P R)
    (newParam : P) (newRate : R) (lb : Option ℚ) (predict : ℚ) :
    TRState P R :=
  match lb with
  | none => ⟨st.param, st.rate, dec * st.r + eps⟩
  | some l =>
    if l < lbPrev then ⟨st.param, st.rate, dec * st.r + eps⟩
    else if l - lbPrev > thld * predict then ⟨newParam, newRate, inc * st.r⟩
    else ⟨newParam, newRate, st.r⟩

end VB

namespace Core

/-! ## `src/vlgp/core.py` — shared data model

`likelihood` is a per-channel family tag; only `"poisson"` and `"gaussian"`
channels occur in the engine's branches. -/

/-- Per-channel observation family (`params["likelihood"]`). -/
inductive Lik
  | poisson
  | gaussian
  deriving DecidableEq

/-- Inference method (`config["method"]`): full variational or MAP-only. -/
inductive Method
  | vb
  | mapOnly
  deriving DecidableEq

section Estep

variable {T Rk Z N X : ℕ}

/-- `einsum("ijk, jk -> ik", x, b)`: the regression contribution
`xb[t, n] = Σ_j x[t, j, n] · b[j, n]`. -/
def xbQ (x : Fin T → Fin X → Fin N → ℚ) (b : Matrix (Fin X) (Fin N) ℚ) :
    Fin T → Fin N → ℚ :=
  fun t n => ∑ j, x t j n * b j n

/-- The linear predictor `eta = mu @ a + xb`. -/
def etaQ (mu : Matrix (Fin T) (Fin Z) ℚ) (a : Matrix (Fin Z) (Fin N) ℚ)
    (xb : Fin T → Fin N → ℚ) : Fin T → Fin N → ℚ :=
  fun t n => (mu * a) t n + xb t n

/-- The second-order-corrected rate `r = trunc_exp(eta + 0.5 * v @ (a ** 2))`.
`texp` stands for `trunc_exp` from `src/vlgp/math.py`, which is not under the
sources; modelled from the spec ("treat a non-finite or non-positive
exponential as a numerical floor") as an abstract map `ℚ → ℚ` since the
exponential is transcendental.  No claim below depends on its values. -/
def rateQ (texp : ℚ → ℚ) (eta : Fin T → Fin N → ℚ)
    (v : Matrix (Fin T) (Fin Z) ℚ) (a : Matrix (Fin Z) (Fin N) ℚ) :
    Fin T → Fin N → ℚ :=
  fun t n => texp (eta t n + 1 / 2 * ∑ l, v t l * a l n ^ 2)

/-- GLM working residuals of `infer_single_trial`:
`residual[:, poisson] = y - rate`, `residual[:, gaussian] = (y - eta)/noise`. -/
def residualQ (lik : Fin N → Lik) (y eta r : Fin T → Fin N → ℚ)
    (noise : Fin N → ℚ) : Fin T → Fin N → ℚ :=
  fun t n =>
    match lik n with
    | .poisson => y t n - r t n
    | .gaussian => (y t n - eta t n) / noise n

/-- One per-dimension Newton step of `infer_single_trial`
(lines 76–97 of `src/vlgp/core.py`): with `WG[t,k] = w[t,l]·G[t,k]`
(the broadcast `wadj * G`), `GtWG = Gᵀ·WG`,
`u = G·(Gᵀ·(residual @ a[l,:])) - mu[:,l]`, the code solves
`M = solve(I + GtWG, WGᵀ·u)` and forms
`Δ = u - G·(WGᵀ·u) + G·(GtWG·M)`, clipped element-wise to `dmu_bound`.
The `try/except` around the solve (a `LinAlgError` on a singular system)
is modelled by the determinant test; on failure `delta_mu = 0`. -/
def deltaMuQ (G : Matrix (Fin T) (Fin Rk) ℚ) (wl : Fin T → ℚ)
    (resa : Fin T → ℚ) (mucol : Fin T → ℚ) (bound : ℚ) : Fin T → ℚ :=
  let WG : Matrix (Fin T) (Fin Rk) ℚ := Matrix.of fun t k => wl t * G t k
  let GtWG := Gᵀ * WG
  let u : Fin T → ℚ := G.mulVec (Gᵀ.mulVec resa) - mucol
  if (1 + GtWG).det = 0 then 0
  else fun t =>
    clipQ bound
      (u t - G.mulVec (WGᵀ.mulVec u) t
        + G.mulVec (GtWG.mulVec ((invQ (1 + GtWG)).mulVec (WGᵀ.mulVec u))) t)

/-- The update applied to column `l` of `mu` given its current value `c`:
`mu[:,l] += delta_mu` with `dmu[:,l] = delta_mu`. -/
def colUpdateQ (prior : Fin Z → Matrix (Fin T) (Fin Rk) ℚ)
    (w : Matrix (Fin T) (Fin Z) ℚ) (res : Fin T → Fin N → ℚ)
    (a : Matrix (Fin Z) (Fin N) ℚ) (bound : ℚ) (l : Fin Z)
    (c : Fin T → ℚ) : Fin T → ℚ :=
  fun t => c t + deltaMuQ (prior l) (fun s => w s l)
      (fun s => ∑ n, res s n * a l n) c bound t

/-- The `for l in range(zdim)` sweep of `infer_single_trial`: columns of `mu`
are updated in order, each from the matrix as left by the previous updates
(the residual and `w` are fixed for the whole sweep, having been computed
before the loop). -/
def sweepMuQ (prior : Fin Z → Matrix (Fin T) (Fin Rk) ℚ)
    (w : Matrix (Fin T) (Fin Z) ℚ) (res : Fin T → Fin N → ℚ)
    (a : Matrix (Fin Z) (Fin N) ℚ) (bound : ℚ)
    (mu0 : Matrix (Fin T) (Fin Z) ℚ) : Matrix (Fin T) (Fin Z) ℚ :=
  (List.finRange Z).foldl
    (fun mu l => mu.updateColumn l (colUpdateQ prior w res a bound l (fun s => mu s l)))
    mu0

/-- Mutable per-trial state of the E-step. -/
structure EState (T Z : ℕ) where
  mu : Matrix (Fin T) (Fin Z) ℚ
  w : Matrix (Fin T) (Fin Z) ℚ
  v : Matrix (Fin T) (Fin Z) ℚ
  dmu : Matrix (Fin T) (Fin Z) ℚ
  deriving DecidableEq

/-- Immutable inputs of `infer_single_trial`: the trial's observations and
design, and the global parameters it reads. -/
structure EEnv (T Z N X : ℕ) where
  y : Matrix (Fin T) (Fin N) ℚ
  x : Fin T → Fin X → Fin N → ℚ
  a : Matrix (Fin Z) (Fin N) ℚ
  b : Matrix (Fin X) (Fin N) ℚ
  noise : Fin N → ℚ
  lik : Fin N → Lik

/-- One inner iteration of `infer_single_trial` (the body of
`for i in range(max_iter)`, lines 68–113 of `src/vlgp/core.py`):
recompute `eta`, `r` and the residual, sweep the per-dimension Newton
updates through `mu`, then recompute `eta`, `r`, the weight
`w = U @ (a.T ** 2)`, and — in VB mode — the posterior marginal variances
`v[:,l]` (a failed solve leaves that column of `v` unchanged). -/
def estepIter (texp : ℚ → ℚ) (env : EEnv T Z N X)
    (prior : Fin Z → Matrix (Fin T) (Fin Rk) ℚ) (method : Method)
    (bound : ℚ) (s : EState T Z) : EState T Z :=
  let xb := xbQ env.x env.b
  let eta := etaQ s.mu env.a xb
  let r := rateQ texp eta s.v env.a
  let res := residualQ env.lik env.y eta r env.noise
  let mu1 := sweepMuQ prior s.w res env.a bound s.mu
  let eta1 := etaQ mu1 env.a xb
  let r1 := rateQ texp eta1 s.v env.a
  let U : Fin T → Fin N → ℚ := fun t n =>
    match env.lik n with
    | .poisson => r1 t n
    | .gaussian => 1 / env.noise n
  let w1 : Matrix (Fin T) (Fin Z) ℚ := Matrix.of fun t l => ∑ n, U t n * env.a l n ^ 2
  let v1 : Matrix (Fin T) (Fin Z) ℚ :=
    if method = .vb then
      Matrix.of fun t l =>
        let G := prior l
        let GtWG := Gᵀ * Matrix.of fun s' k => w1 s' l * G s' k
        if (1 + GtWG).det = 0 then s.v t l
        else
          let B : Matrix (Fin T) (Fin Rk) ℚ :=
            G - G * GtWG + G * (GtWG * (invQ (1 + GtWG) * GtWG))
          ∑ k, G t k * B t k
    else s.v
  ⟨mu1, w1, v1, mu1 - s.mu⟩

/-- `infer_single_trial`: `Eniter` inner iterations (`Eniter < 1` is a
no-op, matching the early `return`). -/
def inferSingleTrialQ (texp : ℚ → ℚ) (env : EEnv T Z N X)
    (prior : Fin Z → Matrix (Fin T) (Fin Rk) ℚ) (method : Method)
    (bound : ℚ) (niter : ℕ) (s : EState T Z) : EState T Z :=
  (estepIter texp env prior method bound)^[niter] s

end Estep

end Core

namespace Core

section EstepThms

variable {T Rk Z N X : ℕ}

/-- Columns are updated in place one at a time, and every per-dimension
update reads the matrix only through its own column; so after the whole
sweep each column holds its own update of its own initial value. -/
theorem foldl_updateColumn_apply (F : Fin Z → (Fin T → ℚ) → Fin T → ℚ) :
    ∀ (L : List (Fin Z)), L.Nodup → ∀ (mu0 : Matrix (Fin T) (Fin Z) ℚ)
      (t : Fin T) (l : Fin Z),
    (L.foldl (fun mu l' => mu.updateColumn l' (F l' fun s => mu s l')) mu0) t l
      = if l ∈ L then F l (fun s => mu0 s l) t else mu0 t l := by
  intro L
  induction L with
  | nil => intro _ mu0 t l; simp
  | cons l0 L ih =>
    intro hnd mu0 t l
    obtain ⟨hl0, hndL⟩ := List.nodup_cons.mp hnd
    rw [List.foldl_cons, ih hndL]
    by_cases hl : l = l0
    · subst hl
      rw [if_neg hl0, if_pos (List.mem_cons_self _ _)]
      simp [Matrix.updateColumn_self]
    · have hcol : ∀ s, mu0.updateColumn l0 (F l0 fun s => mu0 s l0) s l = mu0 s l :=
        fun s => Matrix.updateColumn_ne hl
      by_cases hm : l ∈ L
      · rw [if_pos hm, if_pos (List.mem_cons_of_mem _ hm)]
        congr 1
        funext s
        exact hcol s
      · rw [if_neg hm, if_neg (by simp [hm, hl]), hcol t]

/-- Pointwise description of the per-dimension sweep: column `l` of the
swept `mu` is its initial value plus its own (clipped) Newton step. -/
theorem sweepMuQ_apply (prior : Fin Z → Matrix (Fin T) (Fin Rk) ℚ)
    (w : Matrix (Fin T) (Fin Z) ℚ) (res : Fin T → Fin N → ℚ)
    (a : Matrix (Fin Z) (Fin N) ℚ) (bound : ℚ)
    (mu0 : Matrix (Fin T) (Fin Z) ℚ) (t : Fin T) (l : Fin Z) :
    sweepMuQ prior w res a bound mu0 t l
      = colUpdateQ prior w res a bound l (fun s => mu0 s l) t := by
  rw [sweepMuQ,
    foldl_updateColumn_apply (colUpdateQ prior w res a bound) _
      (List.nodup_finRange Z) mu0 t l,
    if_pos (List.mem_finRange l)]

/-- The broadcast `wadj * G` of the code is the diagonal product
`diag(w[:,l]) · G` of the spec. -/
theorem of_smulcol_eq_diagonal_mul (wl : Fin T → ℚ)
    (G : Matrix (Fin T) (Fin Rk) ℚ) :
    (Matrix.of fun t k => wl t * G t k) = Matrix.diagonal wl * G := by
  ext t k
  simp

/-- The E-step Newton step for one latent dimension exactly as the spec
writes it: `Δ = u − G(WG)ᵗu + G(GᵗWG)M` with
`u = G Gᵗ(residual·a[l,:]) − mu[:,l]`, `M = (I + GᵗWG)⁻¹ (WG)ᵗu` and
`W = diag(w[:,l])` (`invQ` is the matrix inverse). -/
def newtonStepSpec (G : Matrix (Fin T) (Fin Rk) ℚ) (wl : Fin T → ℚ)
    (resa : Fin T → ℚ) (mucol : Fin T → ℚ) : Fin T → ℚ :=
  let W : Matrix (Fin T) (Fin T) ℚ := Matrix.diagonal wl
  let u : Fin T → ℚ := (G * Gᵀ).mulVec resa - mucol
  let M : Fin Rk → ℚ := (invQ (1 + Gᵀ * W * G)).mulVec ((W * G)ᵀ.mulVec u)
  u - G.mulVec ((W * G)ᵀ.mulVec u) + G.mulVec ((Gᵀ * W * G).mulVec M)

/-- When the small system `I + GᵗWG` is nonsingular, the code's
per-dimension update is the clipped spec-form Newton step. -/
theorem deltaMuQ_eq_spec (G : Matrix (Fin T) (Fin Rk) ℚ) (wl : Fin T → ℚ)
    (resa : Fin T → ℚ) (mucol : Fin T → ℚ) (bound : ℚ)
    (hdet : (1 + Gᵀ * Matrix.diagonal wl * G).det ≠ 0) :
    deltaMuQ G wl resa mucol bound
      = fun t => clipQ bound (newtonStepSpec G wl resa mucol t) := by
  funext t
  rw [deltaMuQ, newtonStepSpec]
  simp only [of_smulcol_eq_diagonal_mul]
  simp only [Matrix.mulVec_mulVec, ← Matrix.mul_assoc, Pi.add_apply, Pi.sub_apply]
  rw [if_neg hdet]

end EstepThms

end Core

namespace Core

section ClaimC2

variable {T Rk Z N X : ℕ}

/-- C2: for every trial and every latent dimension `l` in the E-step
(`infer_single_trial`), the Newton step applied to `mu[:,l]` equals
`u − G(WG)ᵗu + G(GᵗWG)M` with `u = G Gᵗ(residual·a[l,:]) − mu[:,l]`,
`M = (I + GᵗWG)⁻¹ (WG)ᵗu` and `W = diag(w[:,l])`; the step is clipped
element-wise to the configured `dmu_bound` before being added to `mu[:,l]`,
and it is applied unconditionally — the equation holds for every state with
no lower-bound accept/reject gate, the only hypothesis being that the
rank-sized solve succeeds. -/
theorem estep_newton_step_matches_spec (texp : ℚ → ℚ) (env : EEnv T Z N X)
    (prior : Fin Z → Matrix (Fin T) (Fin Rk) ℚ) (method : Method) (bound : ℚ)
    (s : EState T Z) (l : Fin Z)
    (hdet : (1 + (prior l)ᵀ * Matrix.diagonal (fun t => s.w t l) * prior l).det ≠ 0)
    (t : Fin T) :
    (estepIter texp env prior method bound s).mu t l
      = s.mu t l
        + clipQ bound
            (newtonStepSpec (prior l) (fun u => s.w u l)
              (fun u => ∑ n,
                residualQ env.lik env.y (etaQ s.mu env.a (xbQ env.x env.b))
                  (rateQ texp (etaQ s.mu env.a (xbQ env.x env.b)) s.v env.a)
                  env.noise u n * env.a l n)
              (fun u => s.mu u l) t) := by
  have h1 : (estepIter texp env prior method bound s).mu
      = sweepMuQ prior s.w
          (residualQ env.lik env.y (etaQ s.mu env.a (xbQ env.x env.b))
            (rateQ texp (etaQ s.mu env.a (xbQ env.x env.b)) s.v env.a) env.noise)
          env.a bound s.mu := rfl
  rw [h1, sweepMuQ_apply, colUpdateQ, deltaMuQ_eq_spec _ _ _ _ _ hdet]

/-- A one-dimensional, one-time-step gaussian-channel trial environment. -/
def envA : EEnv 1 1 1 1 :=
  ⟨0, fun _ _ _ => 0, 0, 0, fun _ => 1, fun _ => Lik.gaussian⟩

/-- A concrete E-step state with `mu = 1` and `w = v = dmu = 0`. -/
def stateA : EState 1 1 := ⟨Matrix.of fun _ _ => 1, 0, 0, 0⟩

/-- Witness for `estep_newton_step_matches_spec` at a concrete instance
(identity prior factor, zero weights). -/
theorem estep_newton_step_matches_spec_witness :
    ((1 + (1 : Matrix (Fin 1) (Fin 1) ℚ)ᵀ
        * Matrix.diagonal (fun t => stateA.w t 0) * 1).det ≠ 0)
    ∧ (estepIter (fun _ => 1) envA
          (fun _ => (1 : Matrix (Fin 1) (Fin 1) ℚ)) Method.vb 1 stateA).mu 0 0
        = stateA.mu 0 0
          + clipQ 1
              (newtonStepSpec (1 : Matrix (Fin 1) (Fin 1) ℚ)
                (fun u => stateA.w u 0)
                (fun u => ∑ n,
                  residualQ envA.lik envA.y (etaQ stateA.mu envA.a (xbQ envA.x envA.b))
                    (rateQ (fun _ => 1) (etaQ stateA.mu envA.a (xbQ envA.x envA.b))
                      stateA.v envA.a)
                    envA.noise u n * envA.a 0 n)
                (fun u => stateA.mu u 0) 0) := by
  have hdet : (1 + (1 : Matrix (Fin 1) (Fin 1) ℚ)ᵀ
      * Matrix.diagonal (fun t => stateA.w t 0) * 1).det ≠ 0 := by
    simp [stateA, Matrix.det_fin_one, Matrix.one_apply]
  exact ⟨hdet,
    estep_newton_step_matches_spec (fun _ => 1) envA
      (fun _ => (1 : Matrix (Fin 1) (Fin 1) ℚ)) Method.vb 1 stateA 0 hdet 0⟩

end ClaimC2

section ClaimC8

variable {T Rk Z N X : ℕ}

/-- With an all-zero low-rank prior factor the small system degenerates to
the identity, the solve succeeds, and the per-dimension step reduces to the
clipped pull `clip(−mu[:,l])` toward the zero prior mean. -/
theorem deltaMuQ_zero (wl resa c : Fin T → ℚ) (bound : ℚ) :
    deltaMuQ (0 : Matrix (Fin T) (Fin Rk) ℚ) wl resa c bound
      = fun t => clipQ bound (-(c t)) := by
  have h0 : (Matrix.of fun t k => wl t * (0 : Matrix (Fin T) (Fin Rk) ℚ) t k)
      = 0 := by
    ext t k
    simp
  rw [deltaMuQ]
  simp [h0]

end ClaimC8

end Core

namespace Core

section ClaimC8Thms

variable {T Rk Z N X : ℕ}

/-- C8 (amended): if the prior lookup supplies an all-zero low-rank factor
`G` for one latent dimension `l`, the E-step inner iteration does not raise
(the solve degenerates to the identity system and succeeds), but `mu[:,l]`
does **not** remain unchanged: it receives the clipped pull
`clip(−mu[:,l], dmu_bound)` toward the zero prior mean (so one inner
iteration zeroes it whenever it is within the bound); the other latent
dimensions are still updated normally — their `mu` columns do not depend
on the factor supplied for dimension `l`. -/
theorem estep_zero_prior_pulls_mu_to_zero (texp : ℚ → ℚ) (env : EEnv T Z N X)
    (prior prior2 : Fin Z → Matrix (Fin T) (Fin Rk) ℚ) (method : Method)
    (bound : ℚ) (s : EState T Z) (l : Fin Z) (h0 : prior l = 0)
    (hagree : ∀ l', l' ≠ l → prior2 l' = prior l') :
    (∀ t, (estepIter texp env prior method bound s).mu t l
        = s.mu t l + clipQ bound (-(s.mu t l)))
    ∧ ∀ t (l' : Fin Z), l' ≠ l →
        (estepIter texp env prior2 method bound s).mu t l'
          = (estepIter texp env prior method bound s).mu t l' := by
  have h1 : ∀ p : Fin Z → Matrix (Fin T) (Fin Rk) ℚ,
      (estepIter texp env p method bound s).mu
        = sweepMuQ p s.w
            (residualQ env.lik env.y (etaQ s.mu env.a (xbQ env.x env.b))
              (rateQ texp (etaQ s.mu env.a (xbQ env.x env.b)) s.v env.a)
              env.noise)
            env.a bound s.mu := fun _ => rfl
  constructor
  · intro t
    rw [h1, sweepMuQ_apply, colUpdateQ, h0, deltaMuQ_zero]
  · intro t l' hl'
    rw [h1, h1, sweepMuQ_apply, sweepMuQ_apply, colUpdateQ, colUpdateQ,
      hagree l' hl']

/-- Witness for `estep_zero_prior_pulls_mu_to_zero` at a concrete
one-dimensional instance with an all-zero prior factor. -/
theorem estep_zero_prior_pulls_mu_to_zero_witness :
    (∀ t, (estepIter (fun _ => 1) envA
        (fun _ => (0 : Matrix (Fin 1) (Fin 1) ℚ)) Method.vb 2 stateA).mu t 0
        = stateA.mu t 0 + clipQ 2 (-(stateA.mu t 0)))
    ∧ ∀ t (l' : Fin 1), l' ≠ 0 →
        (estepIter (fun _ => 1) envA
            (fun _ => (0 : Matrix (Fin 1) (Fin 1) ℚ)) Method.vb 2 stateA).mu t l'
          = (estepIter (fun _ => 1) envA
              (fun _ => (0 : Matrix (Fin 1) (Fin 1) ℚ)) Method.vb 2 stateA).mu t l' :=
  estep_zero_prior_pulls_mu_to_zero (fun _ => 1) envA
    (fun _ => (0 : Matrix (Fin 1) (Fin 1) ℚ))
    (fun _ => (0 : Matrix (Fin 1) (Fin 1) ℚ)) Method.vb 2 stateA 0 rfl
    (fun _ _ => rfl)

/-- C8 counterexample: a one-dimensional trial whose prior factor is the
zero matrix, with `mu = 1` and `dmu_bound = 2`.  Running the E-step
(`infer_single_trial` with `Eniter = 1`) changes `mu[:,0]` (from `1` to
`0`), contradicting the claim that it remains unchanged. -/
theorem estep_zero_prior_counterexample :
    (inferSingleTrialQ (fun _ => 1) envA
        (fun _ => (0 : Matrix (Fin 1) (Fin 1) ℚ)) Method.vb 2 1 stateA).mu 0 0
      ≠ stateA.mu 0 0 := by
  have h1 : (inferSingleTrialQ (fun _ => 1) envA
      (fun _ => (0 : Matrix (Fin 1) (Fin 1) ℚ)) Method.vb 2 1 stateA).mu
      = sweepMuQ (fun _ => (0 : Matrix (Fin 1) (Fin 1) ℚ)) stateA.w
          (residualQ envA.lik envA.y (etaQ stateA.mu envA.a (xbQ envA.x envA.b))
            (rateQ (fun _ => 1) (etaQ stateA.mu envA.a (xbQ envA.x envA.b))
              stateA.v envA.a)
            envA.noise)
          envA.a 2 stateA.mu := rfl
  rw [h1, sweepMuQ_apply, colUpdateQ, deltaMuQ_zero]
  norm_num [stateA, clipQ]

end ClaimC8Thms

end Core

namespace Core

section Constrain

variable {T Z N X K : ℕ}

/-- `config["constrain_latent"]`: `none`/falsy, `"location"`, `"scale"` or
`"both"`. -/
inductive LatentMode
  | off
  | location
  | scale
  | both
  deriving DecidableEq

/-- Cross-trial mean of `mu` over the pooled (concatenated-over-trials)
time axis: `mu.mean(axis=0)`. -/
def pooledMean (mu : Matrix (Fin T) (Fin Z) ℚ) : Fin Z → ℚ :=
  fun l => (∑ t, mu t l) / T

/-- Square of the cross-trial standard deviation `mu.std(axis=0)` (numpy's
population standard deviation, the square root of the mean squared
deviation). -/
def pooledVar (mu : Matrix (Fin T) (Fin Z) ℚ) : Fin Z → ℚ :=
  fun l => (∑ t, (mu t l - pooledMean mu l) ^ 2) / T

/-- `constrain_latent` (lines 366–389 of `src/vlgp/core.py`) over the
pooled time axis: in `location`/`both` mode subtract the cross-trial mean
from every trial's `mu` and add `mean @ a` to `b[0,:]`; in `scale`/`both`
mode divide `mu` (already centered when the mode is `both`) by the
cross-trial standard deviation and multiply `a` by it (`a *= std.T`).
The per-dimension scale `s` stands for the `mu.std(axis=0)` value computed
by the code — a square root, not representable in `ℚ` — so the theorems
characterise it by `0 ≤ s` and `s ^ 2 = pooledVar mu`.  Returns
`(mu, a, b)` after the constraint. -/
def constrainLatent [NeZero X] (mode : LatentMode) (s : Fin Z → ℚ)
    (mu : Matrix (Fin T) (Fin Z) ℚ) (a : Matrix (Fin Z) (Fin N) ℚ)
    (b : Matrix (Fin X) (Fin N) ℚ) :
    Matrix (Fin T) (Fin Z) ℚ × Matrix (Fin Z) (Fin N) ℚ
      × Matrix (Fin X) (Fin N) ℚ :=
  if mode = .off then (mu, a, b)
  else
    let mean := pooledMean mu
    let doLoc := mode = .location ∨ mode = .both
    let doScale := mode = .scale ∨ mode = .both
    let mu1 := if doLoc then Matrix.of fun t l => mu t l - mean l else mu
    let b1 :=
      if doLoc then b.updateRow 0 (fun n => b 0 n + ∑ l, mean l * a l n) else b
    let mu2 := if doScale then Matrix.of fun t l => mu1 t l / s l else mu1
    let a2 := if doScale then Matrix.of fun l n => a l n * s l else a
    (mu2, a2, b1)

/-- The joint linear predictor `mu @ a + x·b` at time `t`, channel `n`. -/
def predictorQ (mu : Matrix (Fin T) (Fin Z) ℚ) (a : Matrix (Fin Z) (Fin N) ℚ)
    (x : Fin T → Fin X → Fin N → ℚ) (b : Matrix (Fin X) (Fin N) ℚ)
    (t : Fin T) (n : Fin N) : ℚ :=
  (mu * a) t n + xbQ x b t n

/-- `constrain_loading`, SVD branch (lines 402–408 of `src/vlgp/core.py`):
with `u, s, v = svd(a, full_matrices=False)` computed by the external
LAPACK routine, the code sets `us := a @ v.T`, replaces every trial's `mu`
by `mu @ us` and the loading by `v`.  The factor `v` is an argument here
(the SVD is irrational in general); the theorem characterises it by the
SVD contract `a = u·diag(s)·v` and `v·vᵀ = I`.  Returns `(a, mu)` after
the constraint. -/
def constrainLoadingSvd (a : Matrix (Fin Z) (Fin N) ℚ)
    (v : Matrix (Fin K) (Fin N) ℚ) (mu : Matrix (Fin T) (Fin Z) ℚ) :
    Matrix (Fin K) (Fin N) ℚ × Matrix (Fin T) (Fin K) ℚ :=
  (v, mu * (a * vᵀ))

/-- `constrain_loading`, Frobenius branch (lines 410–416): the scalar
`s = norm(a, ord="fro") + eps` divides `a` and multiplies every trial's
`mu`.  The norm value `nrm` is an argument (a square root); the theorem
characterises it by `0 ≤ nrm`. -/
def constrainLoadingFro (nrm eps : ℚ) (a : Matrix (Fin Z) (Fin N) ℚ)
    (mu : Matrix (Fin T) (Fin Z) ℚ) :
    Matrix (Fin Z) (Fin N) ℚ × Matrix (Fin T) (Fin Z) ℚ :=
  (Matrix.of fun l n => a l n / (nrm + eps),
   Matrix.of fun t l => mu t l * (nrm + eps))

/-- `constrain_loading`, row-norm branch (lines 410–416): the per-row
vector `s = norm(a, ord=constraint, axis=1) + eps` divides the rows of `a`
and multiplies the columns of every trial's `mu` (`mu *= s.T`).  The norm
values `nrm` are arguments; the theorem characterises them by
`0 ≤ nrm l`. -/
def constrainLoadingRow (nrm : Fin Z → ℚ) (eps : ℚ)
    (a : Matrix (Fin Z) (Fin N) ℚ) (mu : Matrix (Fin T) (Fin Z) ℚ) :
    Matrix (Fin Z) (Fin N) ℚ × Matrix (Fin T) (Fin Z) ℚ :=
  (Matrix.of fun l n => a l n / (nrm l + eps),
   Matrix.of fun t l => mu t l * (nrm l + eps))

end Constrain

end Core

namespace Core

section ClaimC4

variable {T Z N X : ℕ}

theorem constrainLatent_off [NeZero X] (s : Fin Z → ℚ)
    (mu : Matrix (Fin T) (Fin Z) ℚ) (a : Matrix (Fin Z) (Fin N) ℚ)
    (b : Matrix (Fin X) (Fin N) ℚ) :
    constrainLatent .off s mu a b = (mu, a, b) := rfl

theorem constrainLatent_location [NeZero X] (s : Fin Z → ℚ)
    (mu : Matrix (Fin T) (Fin Z) ℚ) (a : Matrix (Fin Z) (Fin N) ℚ)
    (b : Matrix (Fin X) (Fin N) ℚ) :
    constrainLatent .location s mu a b
      = (Matrix.of fun t l => mu t l - pooledMean mu l, a,
         b.updateRow 0 fun n => b 0 n + ∑ l, pooledMean mu l * a l n) := rfl

theorem constrainLatent_scale [NeZero X] (s : Fin Z → ℚ)
    (mu : Matrix (Fin T) (Fin Z) ℚ) (a : Matrix (Fin Z) (Fin N) ℚ)
    (b : Matrix (Fin X) (Fin N) ℚ) :
    constrainLatent .scale s mu a b
      = (Matrix.of fun t l => mu t l / s l,
         Matrix.of fun l n => a l n * s l, b) := rfl

theorem constrainLatent_both [NeZero X] (s : Fin Z → ℚ)
    (mu : Matrix (Fin T) (Fin Z) ℚ) (a : Matrix (Fin Z) (Fin N) ℚ)
    (b : Matrix (Fin X) (Fin N) ℚ) :
    constrainLatent .both s mu a b
      = (Matrix.of fun t l => (mu t l - pooledMean mu l) / s l,
         Matrix.of fun l n => a l n * s l,
         b.updateRow 0 fun n => b 0 n + ∑ l, pooledMean mu l * a l n) := rfl

/-- Adding a compensation into the intercept row of `b` adds exactly that
compensation to `x·b` wherever the intercept column is present. -/
theorem xb_updateRow_add [NeZero X] (x : Fin T → Fin X → Fin N → ℚ)
    (b : Matrix (Fin X) (Fin N) ℚ) (S : Fin N → ℚ) (t : Fin T) (n : Fin N) :
    xbQ x (b.updateRow 0 fun m => b 0 m + S m) t n
      = xbQ x b t n + x t 0 n * S n := by
  unfold xbQ
  have h : ∀ j : Fin X, x t j n * (b.updateRow 0 fun m => b 0 m + S m) j n
      = x t j n * b j n + (if j = 0 then x t j n * S n else 0) := by
    intro j
    by_cases hj : j = 0
    · subst hj
      rw [Matrix.updateRow_self, if_pos rfl]
      ring
    · rw [Matrix.updateRow_ne hj, if_neg hj, add_zero]
  rw [Finset.sum_congr rfl fun j _ => h j, Finset.sum_add_distrib,
    Finset.sum_ite_eq' Finset.univ 0 fun j => x t j n * S n]
  simp

/-- Dividing the latent by a nonzero scale and multiplying the loading by
the same scale cancels inside `mu·a`. -/
theorem sum_div_mul_scale (c a s : Fin Z → ℚ) (hnz : ∀ l, s l ≠ 0) :
    ∑ l, c l / s l * (a l * s l) = ∑ l, c l * a l :=
  Finset.sum_congr rfl fun l _ => by
    have h := hnz l
    field_simp
    ring

/-- C4 (amended): if the first regression design column is the all-ones
intercept, `constrain_latent` in any mode leaves the joint linear
predictor `mu·a + x·b` unchanged at every time step and channel —
*provided*, in the `scale`/`both` modes, that the cross-trial standard
deviation of every latent dimension is nonzero (the original claim fails
when some dimension is constant across the pooled trials, where the
standard deviation is exactly `0`).  Here `s` is the standard-deviation
vector, characterised by `0 ≤ s` and `s² = pooledVar mu`. -/
theorem constrain_latent_preserves_predictor [NeZero X] (mode : LatentMode)
    (s : Fin Z → ℚ) (mu : Matrix (Fin T) (Fin Z) ℚ)
    (a : Matrix (Fin Z) (Fin N) ℚ) (b : Matrix (Fin X) (Fin N) ℚ)
    (x : Fin T → Fin X → Fin N → ℚ)
    (hint : ∀ t n, x t 0 n = 1)
    (hs : (mode = .scale ∨ mode = .both) →
      ∀ l, (0 ≤ s l ∧ s l ^ 2 = pooledVar mu l) ∧ s l ≠ 0)
    (t : Fin T) (n : Fin N) :
    predictorQ (constrainLatent mode s mu a b).1
      (constrainLatent mode s mu a b).2.1 x
      (constrainLatent mode s mu a b).2.2 t n
      = predictorQ mu a x b t n := by
  cases mode with
  | off => rw [constrainLatent_off]
  | location =>
    rw [constrainLatent_location]
    simp only [predictorQ, Matrix.mul_apply, Matrix.of_apply]
    rw [xb_updateRow_add, hint t n, one_mul]
    have hterm : ∀ l : Fin Z,
        (mu t l - pooledMean mu l) * a l n
          = mu t l * a l n - pooledMean mu l * a l n := fun l => by ring
    rw [Finset.sum_congr rfl fun l _ => hterm l, Finset.sum_sub_distrib]
    ring
  | scale =>
    rw [constrainLatent_scale]
    simp only [predictorQ, Matrix.mul_apply, Matrix.of_apply]
    rw [sum_div_mul_scale _ _ _ fun l => (hs (Or.inl rfl) l).2]
  | both =>
    rw [constrainLatent_both]
    simp only [predictorQ, Matrix.mul_apply, Matrix.of_apply]
    rw [sum_div_mul_scale _ _ _ fun l => (hs (Or.inr rfl) l).2,
      xb_updateRow_add, hint t n, one_mul]
    have hterm : ∀ l : Fin Z,
        (mu t l - pooledMean mu l) * a l n
          = mu t l * a l n - pooledMean mu l * a l n := fun l => by ring
    rw [Finset.sum_congr rfl fun l _ => hterm l, Finset.sum_sub_distrib]
    ring

end ClaimC4

end Core

namespace Core

section ClaimC4C5Concrete

/-- Constant pooled latent (two time steps, one dimension, value `3`):
its cross-trial standard deviation is exactly `0`. -/
def cmuC4 : Matrix (Fin 2) (Fin 1) ℚ := Matrix.of fun _ _ => 3

/-- Pooled latent with column `(0, 1)`: mean `1/2`, standard deviation
exactly `1/2`. -/
def dmuC4 : Matrix (Fin 2) (Fin 1) ℚ := Matrix.of fun t _ => if t = 0 then 0 else 1

/-- One-entry loading `a = 1`. -/
def caC4 : Matrix (Fin 1) (Fin 1) ℚ := Matrix.of fun _ _ => 1

/-- All-ones regression design (the intercept column). -/
def cxC4 : Fin 2 → Fin 1 → Fin 1 → ℚ := fun _ _ _ => 1

/-- C4 counterexample: with an all-ones intercept column and a latent
dimension that is constant across the pooled trials, the cross-trial
standard deviation is exactly `0` (witnessed by `0 ≤ 0` and
`0² = pooledVar`), and applying `constrain_latent` in `scale` mode changes
the joint linear predictor: dividing by the zero standard deviation
destroys the `mu·a` contribution (in IEEE arithmetic it produces
`inf`/`nan`), so the claim's unconditional invariance is false. -/
theorem constrain_latent_counterexample :
    (∀ t n, cxC4 t 0 n = 1)
    ∧ ((0 : ℚ) ≤ 0 ∧ (0 : ℚ) ^ 2 = pooledVar cmuC4 0)
    ∧ predictorQ (constrainLatent .scale (fun _ => 0) cmuC4 caC4
          (0 : Matrix (Fin 1) (Fin 1) ℚ)).1
        (constrainLatent .scale (fun _ => 0) cmuC4 caC4
          (0 : Matrix (Fin 1) (Fin 1) ℚ)).2.1 cxC4
        (constrainLatent .scale (fun _ => 0) cmuC4 caC4
          (0 : Matrix (Fin 1) (Fin 1) ℚ)).2.2 0 0
      ≠ predictorQ cmuC4 caC4 cxC4 (0 : Matrix (Fin 1) (Fin 1) ℚ) 0 0 := by
  refine ⟨fun _ _ => rfl, ⟨le_refl 0, ?_⟩, ?_⟩
  · norm_num [pooledVar, pooledMean, cmuC4, Fin.sum_univ_two]
  · rw [constrainLatent_scale]
    norm_num [predictorQ, Matrix.mul_apply, xbQ, cmuC4, caC4, cxC4,
      Fin.sum_univ_one]

/-- Witness for `constrain_latent_preserves_predictor` at a concrete
instance in `both` mode with standard deviation exactly `1/2`. -/
theorem constrain_latent_preserves_predictor_witness :
    (∀ t n, cxC4 t 0 n = 1)
    ∧ (∀ l : Fin 1, ((0 : ℚ) ≤ (1 : ℚ) / 2
        ∧ ((1 : ℚ) / 2) ^ 2 = pooledVar dmuC4 l) ∧ ((1 : ℚ) / 2) ≠ 0)
    ∧ predictorQ (constrainLatent .both (fun _ => 1 / 2) dmuC4 caC4
          (0 : Matrix (Fin 1) (Fin 1) ℚ)).1
        (constrainLatent .both (fun _ => 1 / 2) dmuC4 caC4
          (0 : Matrix (Fin 1) (Fin 1) ℚ)).2.1 cxC4
        (constrainLatent .both (fun _ => 1 / 2) dmuC4 caC4
          (0 : Matrix (Fin 1) (Fin 1) ℚ)).2.2 0 0
      = predictorQ dmuC4 caC4 cxC4 (0 : Matrix (Fin 1) (Fin 1) ℚ) 0 0 := by
  have hs : ∀ l : Fin 1, ((0 : ℚ) ≤ (1 : ℚ) / 2
      ∧ ((1 : ℚ) / 2) ^ 2 = pooledVar dmuC4 l) ∧ ((1 : ℚ) / 2) ≠ 0 := by
    intro l
    have hl : l = 0 := Fin.eq_zero l
    subst hl
    refine ⟨⟨by norm_num, ?_⟩, by norm_num⟩
    norm_num [pooledVar, pooledMean, dmuC4, Fin.sum_univ_two]
  exact ⟨fun _ _ => rfl, hs,
    constrain_latent_preserves_predictor .both (fun _ => 1 / 2) dmuC4 caC4 0
      cxC4 (fun _ _ => rfl) (fun _ l => hs l) 0 0⟩

end ClaimC4C5Concrete

end Core

namespace Core

section ClaimC5

variable {T Z N K : ℕ}

/-- C5: `constrain_loading` leaves `mu @ a` unchanged in exact arithmetic
in every mode, and in SVD mode the new loading has orthonormal rows.
The SVD factors satisfy the contract `a = u·diag(sv)·v`, `v·vᵀ = I`
delivered by the external decomposition; the norm values are nonnegative
and the configured `eps` is positive (it is added exactly "to avoid
division by zero"). -/
theorem constrain_loading_preserves_mu_a
    (a : Matrix (Fin Z) (Fin N) ℚ) (mu : Matrix (Fin T) (Fin Z) ℚ)
    (u : Matrix (Fin Z) (Fin K) ℚ) (sv : Fin K → ℚ)
    (v : Matrix (Fin K) (Fin N) ℚ)
    (hsvd : a = u * Matrix.diagonal sv * v) (hv : v * vᵀ = 1)
    (nrmF : ℚ) (nrm : Fin Z → ℚ) (eps : ℚ)
    (hF : 0 ≤ nrmF) (hrow : ∀ l, 0 ≤ nrm l) (heps : 0 < eps) :
    (constrainLoadingSvd a v mu).2 * (constrainLoadingSvd a v mu).1 = mu * a
    ∧ (constrainLoadingSvd a v mu).1 * (constrainLoadingSvd a v mu).1ᵀ = 1
    ∧ (constrainLoadingFro nrmF eps a mu).2 * (constrainLoadingFro nrmF eps a mu).1
        = mu * a
    ∧ (constrainLoadingRow nrm eps a mu).2 * (constrainLoadingRow nrm eps a mu).1
        = mu * a := by
  refine ⟨?_, hv, ?_, ?_⟩
  · show mu * (a * vᵀ) * v = mu * a
    have havv : a * vᵀ * v = a := by
      rw [hsvd, Matrix.mul_assoc (u * Matrix.diagonal sv) v vᵀ, hv, Matrix.mul_one]
    rw [Matrix.mul_assoc mu (a * vᵀ) v, Matrix.mul_assoc a vᵀ v,
      ← Matrix.mul_assoc a vᵀ v, havv]
  · have hne : nrmF + eps ≠ 0 := by positivity
    show (Matrix.of fun t l => mu t l * (nrmF + eps))
        * (Matrix.of fun l n => a l n / (nrmF + eps)) = mu * a
    ext t n
    rw [Matrix.mul_apply, Matrix.mul_apply]
    refine Finset.sum_congr rfl fun l _ => ?_
    rw [Matrix.of_apply, Matrix.of_apply]
    field_simp
    ring
  · show (Matrix.of fun t l => mu t l * (nrm l + eps))
        * (Matrix.of fun l n => a l n / (nrm l + eps)) = mu * a
    ext t n
    rw [Matrix.mul_apply, Matrix.mul_apply]
    refine Finset.sum_congr rfl fun l _ => ?_
    have hne : nrm l + eps ≠ 0 := by
      have := hrow l
      positivity
    rw [Matrix.of_apply, Matrix.of_apply]
    field_simp
    ring

/-- Witness for `constrain_loading_preserves_mu_a` at a concrete
one-by-one instance (`a = 1` with the trivial SVD `1 = 1·diag(1)·1`). -/
theorem constrain_loading_preserves_mu_a_witness :
    ((1 : Matrix (Fin 1) (Fin 1) ℚ)
        = 1 * Matrix.diagonal (fun _ => (1 : ℚ)) * 1)
    ∧ ((1 : Matrix (Fin 1) (Fin 1) ℚ) * (1 : Matrix (Fin 1) (Fin 1) ℚ)ᵀ = 1)
    ∧ ((0 : ℚ) ≤ 2) ∧ (∀ _ : Fin 1, (0 : ℚ) ≤ 3) ∧ ((0 : ℚ) < 1)
    ∧ (constrainLoadingSvd (1 : Matrix (Fin 1) (Fin 1) ℚ) (1 : Matrix (Fin 1) (Fin 1) ℚ) cmuC4).2
        * (constrainLoadingSvd (1 : Matrix (Fin 1) (Fin 1) ℚ) (1 : Matrix (Fin 1) (Fin 1) ℚ) cmuC4).1
        = cmuC4 * (1 : Matrix (Fin 1) (Fin 1) ℚ)
    ∧ (constrainLoadingFro 2 1 (1 : Matrix (Fin 1) (Fin 1) ℚ) cmuC4).2
        * (constrainLoadingFro 2 1 (1 : Matrix (Fin 1) (Fin 1) ℚ) cmuC4).1
        = cmuC4 * (1 : Matrix (Fin 1) (Fin 1) ℚ) := by
  have hsvd : (1 : Matrix (Fin 1) (Fin 1) ℚ)
      = 1 * Matrix.diagonal (fun _ => (1 : ℚ)) * 1 := by
    simp
  have hv : (1 : Matrix (Fin 1) (Fin 1) ℚ) * (1 : Matrix (Fin 1) (Fin 1) ℚ)ᵀ = 1 := by
    simp
  have h := constrain_loading_preserves_mu_a (1 : Matrix (Fin 1) (Fin 1) ℚ)
    cmuC4 1 (fun _ => 1) 1 hsvd hv 2 (fun _ => 3) 1
    (by norm_num) (fun _ => by norm_num) (by norm_num)
  exact ⟨hsvd, hv, by norm_num, fun _ => by norm_num, by norm_num,
    h.1, h.2.2.1⟩

end ClaimC5

end Core

namespace Core

section Mstep

variable {T Z N X : ℕ}

/-- Mutable parameter state threaded through the M-step
(`a`, `b`, `noise`, `da`, `db` of `params`). -/
structure MParams (Z N X : ℕ) where
  a : Matrix (Fin Z) (Fin N) ℚ
  b : Matrix (Fin X) (Fin N) ℚ
  noise : Fin N → ℚ
  da : Matrix (Fin Z) (Fin N) ℚ
  db : Matrix (Fin X) (Fin N) ℚ
  deriving DecidableEq

/-- `mu_plus_v_times_a = mu + v * a[:, n]` (column broadcast of the
loading column over the per-time posterior variances). -/
def mpvaQ (mu v : Matrix (Fin T) (Fin Z) ℚ) (an : Fin Z → ℚ) :
    Matrix (Fin T) (Fin Z) ℚ :=
  Matrix.of fun t l => mu t l + v t l * an l

/-- Poisson loading gradient
`grad_a = mu.T @ y[:, n] - mu_plus_v_times_a.T @ r[:, n]`. -/
def gradAQ (mu v : Matrix (Fin T) (Fin Z) ℚ) (yn rn : Fin T → ℚ)
    (an : Fin Z → ℚ) : Fin Z → ℚ :=
  fun l => (∑ t, mu t l * yn t) - ∑ t, mpvaQ mu v an t l * rn t

/-- Poisson negated loading Hessian
`nhess_a = mpva.T @ (r[:, n, None] * mpva)` with
`r[:, n] @ v` added to the diagonal. -/
def nhessAQ (mu v : Matrix (Fin T) (Fin Z) ℚ) (rn : Fin T → ℚ)
    (an : Fin Z → ℚ) : Matrix (Fin Z) (Fin Z) ℚ :=
  Matrix.of fun l m =>
    (∑ t, mpvaQ mu v an t l * rn t * mpvaQ mu v an t m)
      + if l = m then ∑ t, rn t * v t l else 0

/-- Poisson loading step of `mstep` (lines 181–202 of
`src/vlgp/core.py`): in exact-Hessian mode solve the jittered system
`(nhess_a + eps·I)·Δ = grad_a`; if the solve fails (`LinAlgError`,
modelled by a zero determinant) the code logs and falls back to the
fixed-learning-rate gradient step `learning_rate * grad_a` — it does
**not** skip the update.  The result is clipped to `da_bound`. -/
def deltaAQ (useH : Bool) (eps lr daB : ℚ)
    (mu v : Matrix (Fin T) (Fin Z) ℚ) (yn rn : Fin T → ℚ)
    (an : Fin Z → ℚ) : Fin Z → ℚ :=
  let g := gradAQ mu v yn rn an
  let d : Fin Z → ℚ :=
    if useH then
      let H := nhessAQ mu v rn an + Matrix.diagonal fun _ => eps
      if H.det = 0 then fun l => lr * g l else (invQ H).mulVec g
    else fun l => lr * g l
  fun l => clipQ daB (d l)

/-- Poisson regression gradient `grad_b = x[..., n].T @ (y[:,n] - r[:,n])`. -/
def gradBQ (x : Fin T → Fin X → Fin N → ℚ) (n : Fin N) (yn rn : Fin T → ℚ) :
    Fin X → ℚ :=
  fun j => ∑ t, x t j n * (yn t - rn t)

/-- Poisson negated regression Hessian
`nhess_b = x[..., n].T @ (r[:, None, n] * x[..., n])`. -/
def nhessBQ (x : Fin T → Fin X → Fin N → ℚ) (n : Fin N) (rn : Fin T → ℚ) :
    Matrix (Fin X) (Fin X) ℚ :=
  Matrix.of fun j k => ∑ t, x t j n * rn t * x t k n

/-- Poisson regression step of `mstep` (lines 204–220), with the same
fallback-on-singular behaviour as the loading step, clipped to
`db_bound`. -/
def deltaBQ (useH : Bool) (eps lr dbB : ℚ)
    (x : Fin T → Fin X → Fin N → ℚ) (n : Fin N) (yn rn : Fin T → ℚ) :
    Fin X → ℚ :=
  let g := gradBQ x n yn rn
  let d : Fin X → ℚ :=
    if useH then
      let H := nhessBQ x n rn + Matrix.diagonal fun _ => eps
      if H.det = 0 then fun j => lr * g j else (invQ H).mulVec g
    else fun j => lr * g j
  fun j => clipQ dbB (d j)

/-- Gaussian normal-equation matrix `M = mu.T @ mu` with
`np.sum(v, axis=0)` added to the diagonal (lines 224–225). -/
def gaussAMat (mu v : Matrix (Fin T) (Fin Z) ℚ) :
    Matrix (Fin Z) (Fin Z) ℚ :=
  Matrix.of fun l m => (∑ t, mu t l * mu t m) + if l = m then ∑ t, v t l else 0

/-- `x[..., n].T @ x[..., n]` of the gaussian regression solve. -/
def xtxQ (x : Fin T → Fin X → Fin N → ℚ) (n : Fin N) :
    Matrix (Fin X) (Fin X) ℚ :=
  Matrix.of fun j k => ∑ t, x t j n * x t k n

/-- One channel update of the `for n in range(ydim)` loop of `mstep`
(lines 179–238 of `src/vlgp/core.py`).  Poisson channels apply the two
clipped Newton/gradient steps and record them in `da`/`db`.  Gaussian
channels run the two closed-form least-squares solves, which are
**unguarded** in the code — a singular system raises a `LinAlgError`
that nothing in `mstep` catches, modelled here as `.error ()`; after the
`b` solve the non-intercept rows of `b[:, n]` are zeroed. -/
def channelUpdateQ (useH : Bool) (eps lr daB dbB : ℚ) (lik : Fin N → Lik)
    (y : Matrix (Fin T) (Fin N) ℚ) (x : Fin T → Fin X → Fin N → ℚ)
    (mu v : Matrix (Fin T) (Fin Z) ℚ) (r : Fin T → Fin N → ℚ) (n : Fin N)
    (p : MParams Z N X) : Except Unit (MParams Z N X) :=
  match lik n with
  | .poisson =>
    let da := deltaAQ useH eps lr daB mu v (fun t => y t n) (fun t => r t n)
      fun l => p.a l n
    let a1 := p.a.updateColumn n fun l => p.a l n + da l
    let db := deltaBQ useH eps lr dbB x n (fun t => y t n) fun t => r t n
    let b1 := p.b.updateColumn n fun j => p.b j n + db j
    .ok ⟨a1, b1, p.noise, p.da.updateColumn n da, p.db.updateColumn n db⟩
  | .gaussian =>
    let M := gaussAMat mu v
    if M.det = 0 then .error ()
    else
      let an := (invQ M).mulVec fun l => ∑ t, mu t l * (y t n - ∑ j, x t j n * p.b j n)
      let XtX := xtxQ x n
      if XtX.det = 0 then .error ()
      else
        let bn := (invQ XtX).mulVec fun j => ∑ t, x t j n * (y t n - ∑ l, mu t l * an l)
        let bn1 : Fin X → ℚ := fun j => if (j : ℕ) = 0 then bn j else 0
        .ok ⟨p.a.updateColumn n an, p.b.updateColumn n bn1, p.noise, p.da, p.db⟩

/-- One inner iteration of `mstep` (the body of `for i in range(niter)`,
lines 173–249 of `src/vlgp/core.py`): `eta`, `r` and the MLE noise
`np.var(y - eta, ddof=0)` are computed **before** the channel loop, from
the parameters as they stand at the start of the iteration; the channel
loop then updates `a` and `b`; finally `params["noise"]` receives the
noise value computed at the top. -/
def mstepIterQ (texp : ℚ → ℚ) (useH : Bool) (eps lr daB dbB : ℚ)
    (lik : Fin N → Lik) (y : Matrix (Fin T) (Fin N) ℚ)
    (x : Fin T → Fin X → Fin N → ℚ) (mu v : Matrix (Fin T) (Fin Z) ℚ)
    (p0 : MParams Z N X) : Except Unit (MParams Z N X) :=
  let eta := etaQ mu p0.a (xbQ x p0.b)
  let r := rateQ texp eta v p0.a
  let noiseNew : Fin N → ℚ := fun n => varQ fun t => y t n - eta t n
  ((List.finRange N).foldlM
      (fun p n => channelUpdateQ useH eps lr daB dbB lik y x mu v r n p)
      p0).map
    fun p => ⟨p.a, p.b, noiseNew, p.da, p.db⟩

end Mstep

end Core

namespace Core

section ClaimC9

variable {T Z N X : ℕ}

/-- Unpacking a successful `Except.map`. -/
theorem except_map_ok {α β : Type} (f : α → β) (e : Except Unit α) (b : β)
    (h : e.map f = .ok b) : ∃ a, e = .ok a ∧ f a = b := by
  cases e with
  | error x => simp [Except.map] at h
  | ok a =>
    refine ⟨a, rfl, ?_⟩
    simpa [Except.map] using h

/-- C9 (amended): in each inner iteration of `mstep`, `params["noise"]` is
assigned after the per-channel update loop, and for every channel it is
the empirical MLE variance (no degrees-of-freedom correction) of the
residual `y - eta` — but `eta` is the linear predictor computed **before**
the channel loop, under the `a` and `b` the iteration started with, not
under the just-updated fit produced by that loop. -/
theorem mstep_noise_from_iteration_start (texp : ℚ → ℚ) (useH : Bool)
    (eps lr daB dbB : ℚ) (lik : Fin N → Lik) (y : Matrix (Fin T) (Fin N) ℚ)
    (x : Fin T → Fin X → Fin N → ℚ) (mu v : Matrix (Fin T) (Fin Z) ℚ)
    (p0 pr : MParams Z N X)
    (h : mstepIterQ texp useH eps lr daB dbB lik y x mu v p0 = .ok pr) :
    pr.noise = fun n => varQ fun t => y t n - etaQ mu p0.a (xbQ x p0.b) t n := by
  simp only [mstepIterQ] at h
  obtain ⟨q, -, hq⟩ := except_map_ok _ _ _ h
  rw [← hq]

/-- All-zero one-channel poisson parameters used by the C9 witness. -/
def p0Zero : MParams 1 1 1 := ⟨0, 0, fun _ => 7, 0, 0⟩

/-- Witness for `mstep_noise_from_iteration_start` at a concrete all-zero
poisson instance in gradient (non-Hessian) mode. -/
theorem mstep_noise_from_iteration_start_witness :
    (mstepIterQ (fun _ => 1) false 0 1 1 1 (fun _ => Lik.poisson)
        (0 : Matrix (Fin 1) (Fin 1) ℚ) (fun _ _ _ => 0) 0 0 p0Zero
      = .ok (⟨0, 0, fun _ => 0, 0, 0⟩ : MParams 1 1 1))
    ∧ (⟨0, 0, fun _ => 0, 0, 0⟩ : MParams 1 1 1).noise
        = fun n => varQ fun t =>
            (0 : Matrix (Fin 1) (Fin 1) ℚ) t n
              - etaQ 0 p0Zero.a (xbQ (fun _ _ _ => 0) p0Zero.b) t n := by
  have h : mstepIterQ (fun _ => 1) false 0 1 1 1 (fun _ => Lik.poisson)
      (0 : Matrix (Fin 1) (Fin 1) ℚ) (fun _ _ _ => 0) 0 0 p0Zero
      = .ok (⟨0, 0, fun _ => 0, 0, 0⟩ : MParams 1 1 1) := by
    simp only [mstepIterQ, channelUpdateQ, deltaAQ, deltaBQ, gradAQ, gradBQ,
      mpvaQ, gaussAMat, xtxQ, etaQ, rateQ, xbQ, varQ, p0Zero, List.finRange,
      List.foldlM, Except.map]
    norm_num [clipQ, Matrix.ext_iff, Matrix.updateColumn_self, Fin.sum_univ_one,
      funext_iff, Fin.forall_fin_one, Matrix.mul_apply, Matrix.zero_apply]
    ext i j
    simp [Matrix.updateColumn_apply]
  exact ⟨h, mstep_noise_from_iteration_start (fun _ => 1) false 0 1 1 1
    (fun _ => Lik.poisson) 0 (fun _ _ _ => 0) 0 0 p0Zero _ h⟩

end ClaimC9

end Core

namespace Core

section ClaimC9Counter

/-- One-channel gaussian parameter state entering the C9 counterexample's
M-step iteration (`a = 0`, `b = 0`, stale noise `37`). -/
def p0C9 : MParams 1 1 1 := ⟨0, 0, fun _ => 37, 0, 0⟩

/-- The parameter state produced by that iteration: the channel loop fits
`a = 1`, `b = 0`, and the stored noise is `1/4` — the residual variance
under the *entering* fit. -/
def prC9 : MParams 1 1 1 := ⟨Matrix.of fun _ _ => 1, 0, fun _ => 1 / 4, 0, 0⟩

theorem mstepIterQ_C9_eval :
    mstepIterQ (fun _ => 1) true 0 1 5 5 (fun _ => Lik.gaussian)
        dmuC4 cxC4 dmuC4 0 p0C9 = .ok prC9 := by
  simp only [mstepIterQ, channelUpdateQ, gaussAMat, xtxQ, etaQ, rateQ, xbQ,
    varQ, invQ, p0C9, prC9, dmuC4, cxC4, List.finRange, List.foldlM,
    Except.map, Fin.sum_univ_two, Fin.sum_univ_one, Matrix.mul_apply,
    Matrix.zero_apply, Matrix.of_apply]
  norm_num [Matrix.det_fin_one, Matrix.adjugate_fin_one, Matrix.ext_iff,
    funext_iff, Fin.forall_fin_one, Matrix.updateColumn_apply,
    Matrix.mulVec, Matrix.dotProduct, Fin.sum_univ_one, Fin.sum_univ_two,
    Matrix.smul_apply, Matrix.one_apply]
  constructor
  · ext i j
    simp [Matrix.updateColumn_apply, Fin.eq_zero j]
  · ext i j
    simp [Matrix.updateColumn_apply, Fin.eq_zero j]

/-- C9 counterexample: at a concrete two-time-step gaussian instance the
iteration stores `noise = 1/4`, the residual variance under the entering
fit, while the residual variance under the just-updated fit (the `a`, `b`
produced by the channel loop) is `0`; the claim that the stored noise is
evaluated under the just-updated fit is therefore false. -/
theorem mstep_noise_counterexample :
    (mstepIterQ (fun _ => 1) true 0 1 5 5 (fun _ => Lik.gaussian)
        dmuC4 cxC4 dmuC4 0 p0C9).map (fun p => p.noise 0) = .ok (1 / 4)
    ∧ (mstepIterQ (fun _ => 1) true 0 1 5 5 (fun _ => Lik.gaussian)
        dmuC4 cxC4 dmuC4 0 p0C9).map
        (fun p => varQ fun t => dmuC4 t 0 - etaQ dmuC4 p.a (xbQ cxC4 p.b) t 0)
      = .ok 0
    ∧ ((1 : ℚ) / 4) ≠ (0 : ℚ) := by
  rw [mstepIterQ_C9_eval]
  refine ⟨rfl, ?_, by norm_num⟩
  have hvar : (varQ fun t => dmuC4 t 0
      - etaQ dmuC4 prC9.a (xbQ cxC4 prC9.b) t 0) = 0 := by
    norm_num [varQ, etaQ, xbQ, prC9, dmuC4, cxC4, Fin.sum_univ_two,
      Fin.sum_univ_one, Matrix.mul_apply, Matrix.zero_apply, Matrix.of_apply]
  simp [Except.map, hvar]

end ClaimC9Counter

end Core

namespace Core

section ClaimC3

variable {T Z N X : ℕ}

/-- C3 (amended): a singular solve does not make the M-step skip the block.
For a Poisson channel in exact-Hessian mode, a singular jittered system
`nhess + eps·I` (the `LinAlgError` from `solve`) is caught and logged, and
the code falls back to the clipped fixed-learning-rate gradient step —
`a[:,n]`/`b[:,n]` are still modified whenever that step is nonzero, not
left unchanged.  For a Gaussian channel the least-squares solves are
unguarded: a singular normal-equation matrix raises a `LinAlgError` that
propagates out of `mstep` (modelled as `.error ()`). -/
theorem mstep_singular_solve_behavior :
    (∀ (eps lr daB : ℚ) (mu v : Matrix (Fin T) (Fin Z) ℚ)
        (yn rn : Fin T → ℚ) (an : Fin Z → ℚ),
        (nhessAQ mu v rn an + Matrix.diagonal fun _ => eps).det = 0 →
        deltaAQ true eps lr daB mu v yn rn an
          = fun l => clipQ daB (lr * gradAQ mu v yn rn an l))
    ∧ (∀ (useH : Bool) (eps lr daB dbB : ℚ) (lik : Fin N → Lik)
        (y : Matrix (Fin T) (Fin N) ℚ) (x : Fin T → Fin X → Fin N → ℚ)
        (mu v : Matrix (Fin T) (Fin Z) ℚ) (r : Fin T → Fin N → ℚ)
        (n : Fin N) (p : MParams Z N X),
        lik n = .gaussian → (gaussAMat mu v).det = 0 →
        channelUpdateQ useH eps lr daB dbB lik y x mu v r n p = .error ()) := by
  constructor
  · intro eps lr daB mu v yn rn an hdet
    simp only [deltaAQ, if_true, if_pos hdet]
  · intro useH eps lr daB dbB lik y x mu v r n p hlik hdet
    simp only [channelUpdateQ, hlik, if_pos hdet]

/-- One-time-step, two-latent-dimension trial with identical latent
columns: the Poisson Gauss–Newton Hessian is exactly rank one. -/
def muC3 : Matrix (Fin 1) (Fin 2) ℚ := Matrix.of fun _ _ => 1

/-- Observation `y = 2` for the C3 counterexample. -/
def yC3 : Matrix (Fin 1) (Fin 1) ℚ := Matrix.of fun _ _ => 2

/-- Zero parameters entering the C3 counterexample's M-step iteration. -/
def p0C3 : MParams 2 1 1 := ⟨0, 0, fun _ => 1, 0, 0⟩

/-- C3 counterexample: at this concrete Poisson instance (exact-Hessian
mode, `eps = 0`) the jittered system matrix is singular, yet after the
M-step channel loop the loading column has changed from `0` to `1` — the
block is not skipped, it falls back to a gradient step; the claim that the
parameters are left unchanged on a singular solve is false. -/
theorem mstep_singular_counterexample :
    (nhessAQ muC3 0 (fun _ => 1) (fun _ => 0)
        + Matrix.diagonal fun _ => (0 : ℚ)).det = 0
    ∧ (mstepIterQ (fun _ => 1) true 0 1 5 5 (fun _ => Lik.poisson)
        yC3 (fun _ _ _ => 1) muC3 0 p0C3).map (fun p => p.a 0 0) = .ok 1
    ∧ p0C3.a 0 0 = 0 ∧ (1 : ℚ) ≠ 0 := by
  refine ⟨?_, ?_, rfl, by norm_num⟩
  · norm_num [nhessAQ, mpvaQ, Matrix.det_fin_two, Matrix.diagonal,
      Fin.sum_univ_one, Matrix.of_apply, Matrix.zero_apply]
    ring
  · simp only [mstepIterQ, channelUpdateQ, deltaAQ, deltaBQ, gradAQ, gradBQ,
      nhessAQ, nhessBQ, mpvaQ, etaQ, rateQ, xbQ, varQ, invQ, p0C3, muC3, yC3,
      List.finRange, List.foldlM, Except.map, Fin.sum_univ_two,
      Fin.sum_univ_one, Matrix.mul_apply, Matrix.zero_apply, Matrix.of_apply]
    norm_num [Matrix.det_fin_two, Matrix.det_fin_one, Matrix.adjugate_fin_one,
      Matrix.diagonal, Matrix.updateColumn_apply, Matrix.mulVec,
      Matrix.dotProduct, Fin.sum_univ_one, Matrix.smul_apply,
      Matrix.one_apply, clipQ]

/-- Witness for `mstep_singular_solve_behavior`: the Poisson conjunct at the
rank-one-Hessian instance of the counterexample, the Gaussian conjunct at an
all-zero trial whose normal-equation matrix is the zero matrix. -/
theorem mstep_singular_solve_behavior_witness :
    ((nhessAQ muC3 0 (fun _ => 1) (fun _ => 0)
        + Matrix.diagonal fun _ => (0 : ℚ)).det = 0)
    ∧ (deltaAQ true 0 1 5 muC3 0 (fun _ => 2) (fun _ => 1) (fun _ => 0)
        = fun l => clipQ 5 (1 * gradAQ muC3 0 (fun _ => 2) (fun _ => 1) (fun _ => 0) l))
    ∧ ((fun _ : Fin 1 => Lik.gaussian) 0 = Lik.gaussian)
    ∧ ((gaussAMat (0 : Matrix (Fin 1) (Fin 1) ℚ) 0).det = 0)
    ∧ (channelUpdateQ true 0 1 5 5 (fun _ : Fin 1 => Lik.gaussian)
        (0 : Matrix (Fin 1) (Fin 1) ℚ) (fun _ _ _ => 0)
        (0 : Matrix (Fin 1) (Fin 1) ℚ) 0 (fun _ _ => 0) 0 p0Zero
        = .error ()) := by
  have hdet1 : (nhessAQ muC3 0 (fun _ => 1) (fun _ => 0)
      + Matrix.diagonal fun _ => (0 : ℚ)).det = 0 := by
    norm_num [nhessAQ, mpvaQ, Matrix.det_fin_two, Matrix.diagonal,
      Fin.sum_univ_one, Matrix.of_apply, Matrix.zero_apply]
    ring
  have hdet2 : (gaussAMat (0 : Matrix (Fin 1) (Fin 1) ℚ) 0).det = 0 := by
    norm_num [gaussAMat, Matrix.det_fin_one, Fin.sum_univ_one,
      Matrix.of_apply, Matrix.zero_apply]
  exact ⟨hdet1,
    (@mstep_singular_solve_behavior 1 2 1 1).1 0 1 5 muC3 0 (fun _ => 2)
      (fun _ => 1) (fun _ => 0) hdet1,
    rfl, hdet2,
    (@mstep_singular_solve_behavior 1 1 1 1).2 true 0 1 5 5
      (fun _ => Lik.gaussian) 0 (fun _ _ _ => 0) 0 0 (fun _ _ => 0) 0 p0Zero
      rfl hdet2⟩

end ClaimC3

end Core

namespace Core

section Vem

variable {S : Type}

/-- The `vem` driver (lines 269–359 of `src/vlgp/core.py`), abstracted over
the mutable state `S` (the trials plus params).  One outer iteration —
`constrain_loading; estep; constrain_latent; mstep; hstep`, the runtime
bookkeeping and the callbacks — is the state transformer `step`.
`scipy.linalg.norm` is Frobenius (a square root, not representable in
`ℚ`), and the loop's control flow depends only on the six norm readings,
so they are abstracted as rational-valued observations of the state:
`nMu`, `nA`, `nB` are read at the start of an iteration (the snapshot
норm of `mu`, `a`, `b`), `nDmu`, `nDa`, `nDb` after the steps (the norms
of the concatenated `dmu` and of `da`, `db`). -/
structure VemCfg (S : Type) where
  step : S → S
  nMu : S → ℚ
  nA : S → ℚ
  nB : S → ℚ
  nDmu : S → ℚ
  nDa : S → ℚ
  nDb : S → ℚ
  tol : ℚ
  minIter : ℕ

/-- `converged = norm(dmu) < tol * norm_mu and norm(da) < tol * norm_a
and norm(db) < tol * norm_b`, where the `mu`/`a`/`b` norms were
snapshotted at the start of the iteration (state `sb`) and the deltas are
read at its end (state `sa`). -/
def vemConverged (cfg : VemCfg S) (sb sa : S) : Prop :=
  cfg.nDmu sa < cfg.tol * cfg.nMu sb
    ∧ cfg.nDa sa < cfg.tol * cfg.nA sb
    ∧ cfg.nDb sa < cfg.tol * cfg.nB sb

instance (cfg : VemCfg S) (sb sa : S) : Decidable (vemConverged cfg sb sa) := by
  unfold vemConverged
  infer_instance

/-- The `for it in range(niter)` loop of `vem` with its conditional
`break`: `fuel` is the number of iterations still allowed, `it` the
0-based index of the next iteration; returns the final state and the
number of iterations executed (`runtime["it"]`).  The function is total:
exhausting the cap returns normally, it does not raise. -/
def vemAux (cfg : VemCfg S) : ℕ → ℕ → S → S × ℕ
  | 0, it, s => (s, it)
  | fuel + 1, it, s =>
    let s1 := cfg.step s
    if vemConverged cfg s s1 ∧ cfg.minIter ≤ it + 1 then (s1, it + 1)
    else vemAux cfg fuel (it + 1) s1

/-- `vem(trials, params, config)`: run up to `max_iter` outer iterations
from state `s0`. -/
def vemRun (cfg : VemCfg S) (maxIter : ℕ) (s0 : S) : S × ℕ :=
  vemAux cfg maxIter 0 s0

/-- `should_stop` of iteration `i` (0-based) on the trajectory from `s0`:
the convergence predicate holds between the iteration-start snapshot and
the post-step state, and the 1-based iteration count `i + 1` has reached
`min_iter`. -/
def vemStopAt (cfg : VemCfg S) (s0 : S) (i : ℕ) : Prop :=
  vemConverged cfg (cfg.step^[i] s0) (cfg.step^[i + 1] s0)
    ∧ cfg.minIter ≤ i + 1

theorem vemAux_no_stop (cfg : VemCfg S) (s0 : S) :
    ∀ (fuel it : ℕ),
      (∀ i, it ≤ i → i < it + fuel → ¬ vemStopAt cfg s0 i) →
      vemAux cfg fuel it (cfg.step^[it] s0)
        = (cfg.step^[it + fuel] s0, it + fuel) := by
  intro fuel
  induction fuel with
  | zero =>
    intro it _
    rw [Nat.add_zero]
    rfl
  | succ fuel ih =>
    intro it h
    rw [vemAux]
    have hs1 : cfg.step (cfg.step^[it] s0) = cfg.step^[it + 1] s0 := by
      rw [Function.iterate_succ_apply' cfg.step it s0]
    rw [hs1, if_neg]
    · have hrec := ih (it + 1) fun i h1 h2 => h i (by omega) (by omega)
      rw [hrec]
      have harith : it + 1 + fuel = it + (fuel + 1) := by omega
      rw [harith]
    · exact h it (le_refl it) (by omega)

theorem vemAux_first_stop (cfg : VemCfg S) (s0 : S) :
    ∀ (fuel it j : ℕ), it ≤ j → j < it + fuel → vemStopAt cfg s0 j →
      (∀ i, it ≤ i → i < j → ¬ vemStopAt cfg s0 i) →
      vemAux cfg fuel it (cfg.step^[it] s0)
        = (cfg.step^[j + 1] s0, j + 1) := by
  intro fuel
  induction fuel with
  | zero => intro it j h1 h2; omega
  | succ fuel ih =>
    intro it j h1 h2 hj hmin
    rw [vemAux]
    have hs1 : cfg.step (cfg.step^[it] s0) = cfg.step^[it + 1] s0 := by
      rw [Function.iterate_succ_apply' cfg.step it s0]
    rcases eq_or_lt_of_le h1 with heq | hlt
    · subst heq
      rw [hs1, if_pos]
      exact hj
    · rw [hs1, if_neg]
      · exact ih (it + 1) j (by omega) (by omega) hj
          fun i ha hb => hmin i (by omega) hb
      · exact hmin it (le_refl it) hlt

theorem vemAux_count_le (cfg : VemCfg S) :
    ∀ (fuel it : ℕ) (s : S), (vemAux cfg fuel it s).2 ≤ it + fuel := by
  intro fuel
  induction fuel with
  | zero => intro it s; simp [vemAux]
  | succ fuel ih =>
    intro it s
    rw [vemAux]
    by_cases hc : vemConverged cfg s (cfg.step s) ∧ cfg.minIter ≤ it + 1
    · rw [if_pos hc]
      omega
    · rw [if_neg hc]
      have := ih (it + 1) (cfg.step s)
      omega

/-- C6: the outer loop of `vem` runs at most `max_iter` iterations; it
stops with count `j + 1` (and state `step^[j+1] s0`) exactly at the first
iteration `j` (0-based) whose end satisfies all three delta conditions
`‖dmu‖ < tol·‖mu‖ ∧ ‖da‖ < tol·‖a‖ ∧ ‖db‖ < tol·‖b‖` — with the
`mu`/`a`/`b` norms snapshotted at that iteration's start — and whose
1-based number `j + 1` has reached `min_iter`; if no iteration below the
cap satisfies this, it runs exactly `max_iter` iterations, returning
normally (no exception) with the cap exhausted. -/
theorem vem_termination (cfg : VemCfg S) (maxIter : ℕ) (s0 : S) :
    ((∀ i, i < maxIter → ¬ vemStopAt cfg s0 i) →
      vemRun cfg maxIter s0 = (cfg.step^[maxIter] s0, maxIter))
    ∧ (∀ j, j < maxIter → vemStopAt cfg s0 j →
        (∀ i, i < j → ¬ vemStopAt cfg s0 i) →
        vemRun cfg maxIter s0 = (cfg.step^[j + 1] s0, j + 1))
    ∧ (vemRun cfg maxIter s0).2 ≤ maxIter := by
  refine ⟨?_, ?_, ?_⟩
  · intro h
    have := vemAux_no_stop cfg s0 maxIter 0 fun i h1 h2 => h i (by omega)
    simpa [vemRun] using this
  · intro j hj hstop hmin
    have := vemAux_first_stop cfg s0 maxIter 0 j (by omega) (by omega) hstop
      fun i h1 h2 => hmin i h2
    simpa [vemRun] using this
  · have := vemAux_count_le cfg maxIter 0 s0
    simpa [vemRun] using this

end Vem

end Core

namespace Core

section ClaimC6Witness

/-- Concrete never-converging driver configuration over `ℕ` states. -/
def cfgC6 : VemCfg ℕ :=
  ⟨Nat.succ, fun _ => 0, fun _ => 0, fun _ => 0,
   fun _ => 1, fun _ => 0, fun _ => 0, 1, 1⟩

/-- Concrete immediately-converging driver configuration. -/
def cfgC6b : VemCfg ℕ :=
  ⟨Nat.succ, fun _ => 1, fun _ => 1, fun _ => 1,
   fun _ => 0, fun _ => 0, fun _ => 0, 1, 1⟩

/-- Witness for `vem_termination`: a configuration that never meets the
delta conditions runs exactly its cap of `3` iterations; one that meets
them at once stops after iteration `1`. -/
theorem vem_termination_witness :
    (∀ i, i < 3 → ¬ vemStopAt cfgC6 0 i)
    ∧ vemRun cfgC6 3 0 = (cfgC6.step^[3] 0, 3)
    ∧ ((0 : ℕ) < 3 ∧ vemStopAt cfgC6b 0 0)
    ∧ vemRun cfgC6b 3 0 = (cfgC6b.step^[0 + 1] 0, 0 + 1) := by
  have hno : ∀ i, i < 3 → ¬ vemStopAt cfgC6 0 i := by
    intro i _ hstop
    unfold vemStopAt vemConverged at hstop
    norm_num [cfgC6] at hstop
  have hyes : vemStopAt cfgC6b 0 0 := by
    unfold vemStopAt vemConverged
    norm_num [cfgC6b]
  exact ⟨hno, (vem_termination cfgC6 3 0).1 hno, ⟨by norm_num, hyes⟩,
    (vem_termination cfgC6b 3 0).2.1 0 (by norm_num) hyes
      fun i hi => absurd hi (by omega)⟩

end ClaimC6Witness

end Core

namespace Core

section Callbacks

/-- A Python exception kind, as far as the `vem` callback loop can
distinguish: its `except RuntimeError` clause separates `RuntimeError`
from every other exception type. -/
inductive PyExc
  | runtimeError
  | otherError
  deriving DecidableEq

/-- Recursion of the callback loop: `i` is the 0-based index of the next
callback.  A callback observes the shared state (trials, params, config)
and either returns (`none`) or raises (`some kind`).  The surrounding
`try/except RuntimeError` catches and logs a `RuntimeError` and the `for`
loop continues; any other exception escapes immediately, so the remaining
callbacks are never invoked.  Returns the indices invoked, in order, and
the escaping exception if any. -/
def runCallbacksGo {S : Type} (s : S) :
    ℕ → List (S → Option PyExc) → List ℕ × Option PyExc
  | _, [] => ([], none)
  | i, cb :: rest =>
    match cb s with
    | some PyExc.otherError => ([i], some PyExc.otherError)
    | _ =>
      let r := runCallbacksGo s (i + 1) rest
      (i :: r.1, r.2)

/-- The callback loop of one `vem` outer iteration (lines 341–345 of
`src/vlgp/core.py`):
`for callback in callbacks: try: callback(trials, params, config)
except RuntimeError: logger.error(...)`. -/
def runCallbacks {S : Type} (cbs : List (S → Option PyExc)) (s : S) :
    List ℕ × Option PyExc :=
  runCallbacksGo s 0 cbs

theorem runCallbacksGo_all_caught {S : Type} (s : S) :
    ∀ (cbs : List (S → Option PyExc)) (i : ℕ),
      (∀ cb ∈ cbs, cb s ≠ some PyExc.otherError) →
      runCallbacksGo s i cbs = (List.range' i cbs.length, none) := by
  intro cbs
  induction cbs with
  | nil => intro i _; simp [runCallbacksGo]
  | cons cb rest ih =>
    intro i h
    have hcb : cb s ≠ some PyExc.otherError :=
      h cb (List.mem_cons_self cb rest)
    have hrec := ih (i + 1) fun c hc => h c (List.mem_cons_of_mem cb hc)
    rw [runCallbacksGo]
    cases hval : cb s with
    | none => simp [hrec, List.range'_succ]
    | some e =>
      cases e with
      | runtimeError => simp [hrec, List.range'_succ]
      | otherError => exact absurd hval hcb

/-- C7 (amended): in every outer iteration each configured callback is
invoked exactly once, in order, with `(trials, params, config)`, and a
`RuntimeError` raised inside a callback is caught and logged without
aborting the loop — but only `RuntimeError` is caught: an exception of
any other type escapes the callback loop at once (the remaining callbacks
are never invoked) and propagates out of `vem`.  Here: if no callback
raises a non-`RuntimeError` exception, every index is invoked once, in
order, and nothing escapes. -/
theorem callbacks_runtime_error_caught {S : Type}
    (cbs : List (S → Option PyExc)) (s : S)
    (h : ∀ cb ∈ cbs, cb s ≠ some PyExc.otherError) :
    runCallbacks cbs s = (List.range cbs.length, none) := by
  rw [runCallbacks, runCallbacksGo_all_caught s cbs 0 h, List.range_eq_range']

/-- Witness for `callbacks_runtime_error_caught`: one returning callback
followed by one raising `RuntimeError` — both invoked, nothing escapes. -/
theorem callbacks_runtime_error_caught_witness :
    (∀ cb ∈ [fun _ : Unit => (none : Option PyExc),
        fun _ => some PyExc.runtimeError], cb () ≠ some PyExc.otherError)
    ∧ runCallbacks [fun _ : Unit => (none : Option PyExc),
        fun _ => some PyExc.runtimeError] ()
      = (List.range 2, none) := by
  have h : ∀ cb ∈ [fun _ : Unit => (none : Option PyExc),
      fun _ => some PyExc.runtimeError], cb () ≠ some PyExc.otherError := by
    intro cb hcb
    rcases List.mem_cons.mp hcb with hc | hc
    · subst hc; simp
    · rcases List.mem_cons.mp hc with hc2 | hc2
      · subst hc2; simp
      · simp at hc2
  exact ⟨h, callbacks_runtime_error_caught _ () h⟩

/-- C7 counterexample: a single callback raising an exception that is not
a `RuntimeError` (e.g. a `ValueError`), followed by a second callback.
The exception escapes the loop (`some otherError` instead of `none`) and
the second callback is never invoked (`[0]`, not `[0, 1]`) — so "any
error raised inside a callback is caught and logged and never aborts the
outer loop" is false: only `RuntimeError` is caught. -/
theorem callbacks_counterexample :
    runCallbacks [fun _ : Unit => some PyExc.otherError, fun _ => none] ()
      = ([0], some PyExc.otherError) := rfl

end Callbacks

end Core

namespace Core

section UpdateWV

variable {T Rk Z N X : ℕ}

/-- A trial record as `update_w`/`update_v` see it: the `"w"` and `"v"`
dict entries may be absent (`Option`); `trial.setdefault` creates a
missing entry as a zero array shaped like `mu` and stores it. -/
structure TrialRec (T Z N X : ℕ) where
  y : Matrix (Fin T) (Fin N) ℚ
  x : Fin T → Fin X → Fin N → ℚ
  mu : Matrix (Fin T) (Fin Z) ℚ
  wOpt : Option (Matrix (Fin T) (Fin Z) ℚ)
  vOpt : Option (Matrix (Fin T) (Fin Z) ℚ)
  deriving DecidableEq

/-- `update_w` (lines 419–442 of `src/vlgp/core.py`):
`w = trial.setdefault("w", np.zeros_like(mu))` and likewise for `v` (so
both entries exist afterwards, zero-filled if they were missing); then
`eta`, the corrected rate `r`, `U` (`r` on Poisson channels, `1/noise` on
Gaussian ones) and `trial["w"] = U @ (a.T ** 2)`.  `y`, `x` and `mu` are
only read. -/
def updateW (texp : ℚ → ℚ) (a : Matrix (Fin Z) (Fin N) ℚ)
    (b : Matrix (Fin X) (Fin N) ℚ) (noise : Fin N → ℚ) (lik : Fin N → Lik)
    (tr : TrialRec T Z N X) : TrialRec T Z N X :=
  let v := tr.vOpt.getD 0
  let eta := etaQ tr.mu a (xbQ tr.x b)
  let r := rateQ texp eta v a
  let U : Fin T → Fin N → ℚ := fun t n =>
    match lik n with
    | .poisson => r t n
    | .gaussian => 1 / noise n
  ⟨tr.y, tr.x, tr.mu,
   some (Matrix.of fun t l => ∑ n, U t n * a l n ^ 2), some v⟩

/-- The per-dimension body of `update_v`'s `for l in range(zdim)` loop:
`GtWG = G.T @ (w[:, [l]] * G)`; on a nonsingular `I + GtWG`,
`v[:, l] = np.sum(G * (G - G@GtWG + G@(GtWG@solve(I+GtWG, GtWG))), axis=1)`;
on a `LinAlgError` (zero determinant) the old column is kept. -/
def vColQ (G : Matrix (Fin T) (Fin Rk) ℚ) (wl vold : Fin T → ℚ) :
    Fin T → ℚ :=
  let GtWG := Gᵀ * Matrix.of fun u k => wl u * G u k
  if (1 + GtWG).det = 0 then vold
  else fun t =>
    let B : Matrix (Fin T) (Fin Rk) ℚ :=
      G - G * GtWG + G * (GtWG * (invQ (1 + GtWG) * GtWG))
    ∑ k, G t k * B t k

/-- At the zero weight column the `update_v` solve degenerates to the
identity system and succeeds, giving the prior factor's squared row
sums. -/
theorem vColQ_zero_w (G : Matrix (Fin T) (Fin Rk) ℚ) (vold : Fin T → ℚ) :
    vColQ G (fun _ => 0) vold = fun t => ∑ k, G t k ^ 2 := by
  have hof : (Matrix.of fun _ _ => (0 : ℚ))
      = (0 : Matrix (Fin T) (Fin Rk) ℚ) := by
    ext u k
    simp
  rw [vColQ]
  simp only [zero_mul, hof, Matrix.mul_zero, add_zero, sub_zero,
    Matrix.det_one]
  rw [if_neg one_ne_zero]
  funext t
  refine Finset.sum_congr rfl fun k _ => ?_
  ring

/-- `update_v` (lines 445–471 of `src/vlgp/core.py`): a no-op unless
`config["method"] == "VB"`; otherwise `setdefault` creates missing
`w`/`v` entries as zero arrays shaped like `mu`, and each posterior
marginal-variance column `v[:, l]` is recomputed through the low-rank
Woodbury solve `np.sum(G * (G - G@GtWG + G@(GtWG@solve(I+GtWG, GtWG))),
axis=1)`; a `LinAlgError` (singular `I + GᵗWG`, modelled by a zero
determinant) is caught and logged, leaving that column as it was. -/
def updateV (method : Method) (prior : Fin Z → Matrix (Fin T) (Fin Rk) ℚ)
    (tr : TrialRec T Z N X) : TrialRec T Z N X :=
  if method = .vb then
    let w := tr.wOpt.getD 0
    let v := tr.vOpt.getD 0
    let vNew : Matrix (Fin T) (Fin Z) ℚ := Matrix.of fun t l =>
      vColQ (prior l) (fun u => w u l) (fun u => v u l) t
    ⟨tr.y, tr.x, tr.mu, some w, some vNew⟩
  else tr

/-- C10: a trial lacking its `"w"`/`"v"` entries does not make `update_w`
or `update_v` fail: the missing entries are first created as zero arrays
shaped like `mu`; `update_w` then overwrites `trial["w"]` with
`U @ (a.T ** 2)` (leaving the created `v` at zero), and `update_v` — in
`VB` mode only — overwrites every column of `trial["v"]` with the
Woodbury value, which at the created zero `w` is `Σ_k G[t,k]²` (the
degenerate solve `I + 0` always succeeds); with any other method
`update_v` changes nothing at all.  `y`, `x` and `mu` are unchanged
throughout. -/
theorem update_w_v_create_missing_entries (texp : ℚ → ℚ)
    (a : Matrix (Fin Z) (Fin N) ℚ) (b : Matrix (Fin X) (Fin N) ℚ)
    (noise : Fin N → ℚ) (lik : Fin N → Lik)
    (prior : Fin Z → Matrix (Fin T) (Fin Rk) ℚ) (tr : TrialRec T Z N X)
    (hw : tr.wOpt = none) (hv : tr.vOpt = none) :
    ((updateW texp a b noise lik tr).y = tr.y
      ∧ (updateW texp a b noise lik tr).x = tr.x
      ∧ (updateW texp a b noise lik tr).mu = tr.mu
      ∧ (updateW texp a b noise lik tr).vOpt = some 0
      ∧ (updateW texp a b noise lik tr).wOpt
          = some (Matrix.of fun t l => ∑ n,
              (match lik n with
                | Lik.poisson =>
                  rateQ texp (etaQ tr.mu a (xbQ tr.x b)) 0 a t n
                | Lik.gaussian => 1 / noise n) * a l n ^ 2))
    ∧ ((updateV .vb prior tr).y = tr.y
      ∧ (updateV .vb prior tr).x = tr.x
      ∧ (updateV .vb prior tr).mu = tr.mu
      ∧ (updateV .vb prior tr).wOpt = some 0
      ∧ (updateV .vb prior tr).vOpt
          = some (Matrix.of fun t l => ∑ k, prior l t k ^ 2))
    ∧ updateV .mapOnly prior tr = tr := by
  have hwcol : ∀ l : Fin Z, (fun u => (tr.wOpt.getD 0) u l)
      = fun _ : Fin T => (0 : ℚ) := by
    intro l
    funext u
    simp [hw]
  refine ⟨⟨rfl, rfl, rfl, ?_, ?_⟩, ⟨rfl, rfl, rfl, ?_, ?_⟩, rfl⟩
  · simp [updateW, hv]
  · simp [updateW, hv]
  · rw [updateV, if_pos rfl]
    show some (tr.wOpt.getD 0) = some 0
    rw [hw]
    rfl
  · rw [updateV, if_pos rfl]
    show some (Matrix.of fun t l => vColQ (prior l)
        (fun u => (tr.wOpt.getD 0) u l) (fun u => (tr.vOpt.getD 0) u l) t)
      = some (Matrix.of fun t l => ∑ k, prior l t k ^ 2)
    congr 1
    ext t l
    rw [Matrix.of_apply, Matrix.of_apply, hwcol l, vColQ_zero_w]

end UpdateWV

end Core

namespace Core

section ClaimC10Witness

/-- A concrete trial that lacks its `"w"` and `"v"` entries. -/
def trC10 : TrialRec 1 1 1 1 := ⟨0, fun _ _ _ => 0, 0, none, none⟩

/-- Witness for `update_w_v_create_missing_entries` at `trC10` with an
identity prior factor. -/
theorem update_w_v_create_missing_entries_witness :
    trC10.wOpt = none ∧ trC10.vOpt = none
    ∧ (updateV Method.vb (fun _ => (1 : Matrix (Fin 1) (Fin 1) ℚ)) trC10).vOpt
        = some (Matrix.of fun t _ =>
            ∑ k, (1 : Matrix (Fin 1) (Fin 1) ℚ) t k ^ 2)
    ∧ (updateW (fun _ => 1) 0 0 (fun _ => 1) (fun _ => Lik.gaussian) trC10).mu
        = trC10.mu :=
  ⟨rfl, rfl,
   (update_w_v_create_missing_entries (fun _ => 1) 0 0 (fun _ => 1)
      (fun _ => Lik.gaussian) (fun _ => (1 : Matrix (Fin 1) (Fin 1) ℚ))
      trC10 rfl rfl).2.1.2.2.2.2,
   (update_w_v_create_missing_entries (fun _ => 1)
      (0 : Matrix (Fin 1) (Fin 1) ℚ) 0 (fun _ => 1) (fun _ => Lik.gaussian)
      (fun _ => (1 : Matrix (Fin 1) (Fin 1) ℚ)) trC10 rfl rfl).1.2.2.1⟩

end ClaimC10Witness

end Core

namespace VB

/-- C1 (amended): in every trust-region parameter-block update of
`variational` (the per-channel `b` block and the per-dimension `a` and `m`
blocks), after applying the candidate step and re-evaluating the lower
bound `lb` against the recorded bound `lbound[it-1]` (with `predict` the
predicted improvement `gᵗΔ + ½ΔᵗHΔ`, cf. `predictQ`):
if `lb` is NaN or **strictly decreased** (`lb < lbound[it-1]` — equality
keeps the step, the test is strict), the block's parameter and its cached
rate are restored to their pre-step values and the trust scalar becomes
`0.5·r + eps`; else if the actual improvement `lb - lbound[it-1]` exceeds
`0.75·predict`, the trust scalar is multiplied by `1.5` with no upper
clamp (the clamp is commented out) and the new value is kept; else the
trust scalar is unchanged and the new value is kept. -/
theorem trust_step_policy {P R : Type} (eps lbPrev predict : ℚ)
    (st : TRState P R) (newParam : P) (newRate : R) :
    (trustStep eps lbPrev st newParam newRate none predict
        = ⟨st.param, st.rate, dec * st.r + eps⟩)
    ∧ (∀ l : ℚ, l < lbPrev →
        trustStep eps lbPrev st newParam newRate (some l) predict
          = ⟨st.param, st.rate, dec * st.r + eps⟩)
    ∧ (∀ l : ℚ, lbPrev ≤ l → l - lbPrev > thld * predict →
        trustStep eps lbPrev st newParam newRate (some l) predict
          = ⟨newParam, newRate, inc * st.r⟩)
    ∧ (∀ l : ℚ, lbPrev ≤ l → ¬(l - lbPrev > thld * predict) →
        trustStep eps lbPrev st newParam newRate (some l) predict
          = ⟨newParam, newRate, st.r⟩) := by
  refine ⟨rfl, ?_, ?_, ?_⟩
  · intro l hl
    simp only [trustStep, if_pos hl]
  · intro l hge hgrow
    simp only [trustStep, if_neg (not_lt.mpr hge), if_pos hgrow]
  · intro l hge hkeep
    simp only [trustStep, if_neg (not_lt.mpr hge), if_neg hkeep]

/-- Witness for `trust_step_policy`: the three `some`-branches at concrete
bounds (`lbPrev = 5`): a decreased bound (`lb = 0`) reverts and shrinks,
a strong improvement (`lb = 10`, `predict = 1`) grows the trust scalar,
a weak improvement (`lb = 6`, `predict = 100`) keeps it. -/
theorem trust_step_policy_witness :
    ((0 : ℚ) < 5
      ∧ trustStep 1 5 ⟨(0 : ℚ), (0 : ℚ), 1⟩ 2 3 (some 0) 1
          = ⟨0, 0, dec * 1 + 1⟩)
    ∧ ((5 : ℚ) ≤ 10 ∧ (10 : ℚ) - 5 > thld * 1
      ∧ trustStep 1 5 ⟨(0 : ℚ), (0 : ℚ), 1⟩ 2 3 (some 10) 1
          = ⟨2, 3, inc * 1⟩)
    ∧ ((5 : ℚ) ≤ 6 ∧ ¬((6 : ℚ) - 5 > thld * 100)
      ∧ trustStep 1 5 ⟨(0 : ℚ), (0 : ℚ), 1⟩ 2 3 (some 6) 100
          = ⟨2, 3, 1⟩) := by
  have h1 : (0 : ℚ) < 5 := by norm_num
  have h2a : (5 : ℚ) ≤ 10 := by norm_num
  have h2b : (10 : ℚ) - 5 > thld * 1 := by norm_num [thld]
  have h3a : (5 : ℚ) ≤ 6 := by norm_num
  have h3b : ¬((6 : ℚ) - 5 > thld * 100) := by norm_num [thld]
  exact ⟨⟨h1, (trust_step_policy 1 5 1 ⟨0, 0, 1⟩ 2 3).2.1 0 h1⟩,
    ⟨h2a, h2b, (trust_step_policy 1 5 1 ⟨0, 0, 1⟩ 2 3).2.2.1 10 h2a h2b⟩,
    ⟨h3a, h3b, (trust_step_policy 1 5 100 ⟨0, 0, 1⟩ 2 3).2.2.2 6 h3a h3b⟩⟩

/-- C1 counterexample: a candidate step whose re-evaluated bound exactly
equals the last recorded bound.  The bound "did not increase", so the
claim requires the block's parameter and cached rate restored and the
trust scalar shrunk to `0.5·r + eps`; the code's rejection test is strict
(`lb < lbound[it-1]`, or `lb - lbound[it-1] < 0` in the `a` block), so it
keeps the new parameter (`2`, not the snapshot `0`) and leaves the trust
scalar at `1` (not `0.5·1 + 1/100`). -/
theorem trust_step_counterexample :
    trustStep (1 / 100) 5 ⟨(0 : ℚ), (0 : ℚ), 1⟩ 2 3 (some 5) 10
      = ⟨2, 3, 1⟩
    ∧ (2 : ℚ) ≠ 0 ∧ (1 : ℚ) ≠ dec * 1 + 1 / 100 := by
  refine ⟨?_, by norm_num, by norm_num [dec]⟩
  simp only [trustStep, if_neg (lt_irrefl (5 : ℚ))]
  rw [if_neg]
  norm_num [thld]

end VB
